import Mathlib

/-!
# kx-packet-inspector: formatting core

A shallow embedding of `src/FormattingUtils.cpp` and the record type of
`src/PacketData.h`, followed by theorems about the renderers.

Modelling conventions
* `std::string` is `String`; a `std::vector<uint8_t>` is a `List (Fin 256)`;
  `uint16_t` is `Fin 65536`.
* A `std::stringstream` is an `OStream`: the characters written so far plus the
  formatting flags the code touches (`std::hex`/`std::dec`, `std::uppercase`,
  `std::setw`, `std::setfill`).  Every `<<` of the source is one stream operation
  here, in the same order.
* `int maxBytes` and the loop counter `count` are mathematical integers.  The
  counter is incremented once per rendered byte, so it leaves the range of a
  32-bit `int` only for payloads of `2^31` bytes or more, where the C++ increment
  is undefined.  The conversion `static_cast<int>(data.size())` is defined
  (modular) and is modelled with its wrap-around (`toInt32`).
* The platform pieces of `FormatTimestamp` (tick length of `system_clock`, the
  local-time conversion `localtime_s`) are parameters, collected in `Clock`.
-/

namespace kx

/-! ## Output streams -/

/-- Digit character produced by the numeric inserter: `0`-`9`, then `a`-`f`, or
`A`-`F` when `std::uppercase` is set. -/
def digitChar (upper : Bool) (d : Nat) : Char :=
  if d < 10 then Char.ofNat (48 + d)
  else if upper then Char.ofNat (55 + d)
  else Char.ofNat (87 + d)

/-- Digits of `n` in the given base, most significant first, pushed in front of
`acc`; `fuel` bounds the number of digits produced. -/
def digitsCore (base : Nat) (upper : Bool) : Nat → Nat → List Char → List Char
  | 0, _, acc => acc
  | fuel + 1, n, acc =>
    if n / base = 0 then digitChar upper (n % base) :: acc
    else digitsCore base upper fuel (n / base) (digitChar upper (n % base) :: acc)

/-- Shortest rendering of a natural number in the given base (`"0"` for zero). -/
def natDigits (base : Nat) (upper : Bool) (n : Nat) : String :=
  ⟨digitsCore base upper (n + 1) n []⟩

/-- The part of a `std::ostream` the formatters use. -/
structure OStream where
  /-- characters written so far (`ss.str()`) -/
  buf : String
  /-- `basefield` is `hex` (otherwise `dec`) -/
  hexBase : Bool
  /-- the `std::uppercase` flag -/
  upper : Bool
  /-- field width for the next formatted insertion -/
  width : Nat
  /-- fill character -/
  fill : Char

namespace OStream

/-- A freshly constructed `std::stringstream`: empty, decimal, no `uppercase`,
width 0, fill `' '`. -/
def fresh : OStream := ⟨"", false, false, 0, ' '⟩

/-- `ss.str()` -/
def str (s : OStream) : String := s.buf

/-- `ss << std::hex` -/
def hex (s : OStream) : OStream := { s with hexBase := true }

/-- `ss << std::dec` -/
def dec (s : OStream) : OStream := { s with hexBase := false }

/-- `ss << std::uppercase` -/
def uppercase (s : OStream) : OStream := { s with upper := true }

/-- `ss << std::setw(w)`; a non-positive width means no padding. -/
def setw (s : OStream) (w : Int) : OStream := { s with width := w.toNat }

/-- `ss << std::setfill(c)` -/
def setfill (s : OStream) (c : Char) : OStream := { s with fill := c }

/-- Pads `body` to the pending field width.  `adjustfield` is never set by the
code, so the fill characters go in front. -/
def padded (s : OStream) (body : String) : String :=
  ⟨List.replicate (s.width - body.length) s.fill⟩ ++ body

/-- `ss << x` for a string (`std::string` or `const char*`): a formatted
insertion, which pads to the pending width and resets the width to 0. -/
def putStr (s : OStream) (x : String) : OStream :=
  { s with buf := s.buf ++ s.padded x, width := 0 }

/-- `ss << c` for a single `char`. -/
def putChar (s : OStream) (c : Char) : OStream := s.putStr (String.singleton c)

/-- Text of an unsigned value under the current base and case flags. -/
def natText (s : OStream) (n : Nat) : String :=
  natDigits (if s.hexBase then 16 else 10) s.upper n

/-- `ss << n` for an unsigned integer (`uint16_t` is `unsigned short`, which is
inserted as a number). -/
def putUnsigned (s : OStream) (n : Nat) : OStream := s.putStr (s.natText n)

/-- Text of a signed value of `bits` bits: in decimal a `-` sign and the
magnitude, in hexadecimal the digits of the two's-complement bit pattern. -/
def intText (s : OStream) (bits : Nat) (x : Int) : String :=
  if s.hexBase then s.natText (x % 2 ^ bits).toNat
  else if x < 0 then "-" ++ s.natText (-x).toNat
  else s.natText x.toNat

/-- `ss << x` for a signed integer of `bits` bits (`int`: 32, `long long`: 64). -/
def putSigned (s : OStream) (bits : Nat) (x : Int) : OStream :=
  s.putStr (s.intText bits x)

end OStream

/-! ## `FormatBytesToHex` -/

/-- Local variables of `FormatBytesToHex` that the loop updates. -/
structure HexLoop where
  ss : OStream
  count : Int
  truncated : Bool

/-- The range-`for` of `FormatBytesToHex` over the bytes still to visit.  The
first branch is the `break`. -/
def hexLoop (maxBytes : Int) : List (Fin 256) → HexLoop → HexLoop
  | [], st => st
  | byte :: rest, st =>
    if maxBytes > 0 ∧ st.count ≥ maxBytes then
      { st with ss := st.ss.putStr "...", truncated := true }
    else
      let ss1 := if st.count > 0 then st.ss.putStr " " else st.ss
      let ss2 := ((((ss1.hex).uppercase).setw 2).setfill '0').putSigned 32 (byte.val : Int)
      hexLoop maxBytes rest { st with ss := ss2, count := st.count + 1 }

/-- `std::string FormatBytesToHex(const std::vector<uint8_t>& data, int maxBytes)` -/
def FormatBytesToHex (data : List (Fin 256)) (maxBytes : Int) : String :=
  let st := hexLoop maxBytes data ⟨OStream.fresh, 0, false⟩
  if data.isEmpty then "(empty)"
  else if st.count = 0 ∧ maxBytes = 0 ∧ ¬ data.isEmpty then "..."
  else if st.ss.str.isEmpty ∧ ¬ data.isEmpty ∧ ¬ st.truncated then "(Error Formatting Hex?)"
  else st.ss.str

/-! ## `FormatTimestamp` -/

/-- The fields of `std::tm` that `"%H:%M:%S"` reads. -/
structure Tm where
  tm_hour : Nat
  tm_min : Nat
  tm_sec : Nat

/-- Platform parameters of `FormatTimestamp`.  A `time_point` of
`std::chrono::system_clock` is its tick count since the epoch (an `Int`,
negative before the epoch). -/
structure Clock where
  /-- ticks of `system_clock::duration` in one millisecond -/
  ticksPerMilli : Nat
  /-- the conversion of a `time_t` (whole seconds) to local broken-down time -/
  localtime_s : Int → Tm

/-- A `strftime` field of the form `%H`, `%M`, `%S`: decimal, two digits,
zero-padded. -/
def twoDigit (n : Nat) : String :=
  ⟨List.replicate (2 - (natDigits 10 false n).length) '0'⟩ ++ natDigits 10 false n

/-- `ss << std::put_time(&tm, "%H:%M:%S")` -/
def OStream.putTime (s : OStream) (tm : Tm) : OStream :=
  { s with buf := s.buf ++ twoDigit tm.tm_hour ++ ":" ++ twoDigit tm.tm_min ++ ":"
      ++ twoDigit tm.tm_sec }

/-- `std::chrono::system_clock::to_time_t`: whole seconds, rounded toward zero. -/
def to_time_t (clk : Clock) (tp : Int) : Int := Int.tdiv tp (1000 * clk.ticksPerMilli)

/-- `duration_cast<milliseconds>(tp.time_since_epoch()) % 1000`, as its
`count()`: both the cast and `%` round toward zero. -/
def millisPart (clk : Clock) (tp : Int) : Int :=
  Int.tmod (Int.tdiv tp clk.ticksPerMilli) 1000

/-- `std::string FormatTimestamp(const system_clock::time_point& tp)` -/
def FormatTimestamp (clk : Clock) (tp : Int) : String :=
  let time := to_time_t clk tp
  let local_tm := clk.localtime_s time
  let ms := millisPart clk tp
  let ss := OStream.fresh
  let ss := ss.putTime local_tm
  let ss := (((ss.putChar '.').setfill '0').setw 3).putSigned 64 ms
  ss.str

/-! ## Records (`PacketData.h`) -/

/-- `enum class PacketDirection` -/
inductive PacketDirection where
  | Sent
  | Received
  deriving DecidableEq

/-- `enum class InternalPacketType` -/
inductive InternalPacketType where
  | NORMAL
  | ENCRYPTED_RC4
  | UNKNOWN_HEADER
  | EMPTY_PACKET
  | PROCESSING_ERROR
  | PACKET_TOO_SMALL
  deriving DecidableEq

/-- `struct PacketInfo`, with the default member initialisers of the header. -/
structure PacketInfo where
  timestamp : Int
  size : Int := 0
  data : List (Fin 256) := []
  direction : PacketDirection
  rawHeaderId : Fin 65536 := 0
  name : String := "Unprocessed"
  bufferState : Int := -1
  specialType : InternalPacketType := InternalPacketType.NORMAL

/-! ## Line composers -/

/-- `static_cast<int>(n)` for a `size_t` value `n`: reduction modulo `2^32` into
the range of a 32-bit `int`. -/
def toInt32 (n : Nat) : Int :=
  if n % 2 ^ 32 < 2 ^ 31 then ((n % 2 ^ 32 : Nat) : Int) else ((n % 2 ^ 32 : Nat) : Int) - 2 ^ 32

/-- The insertion chain shared by both composers (source lines 77-83 and
95-101), given the already computed pieces. -/
def composeLine (timestampStr directionStr : String) (packet : PacketInfo)
    (displaySize : Int) (dataHexStr : String) : String :=
  let ss := OStream.fresh
  let ss := (ss.putStr timestampStr).putStr " "
  let ss := (ss.putStr directionStr).putStr " "
  let ss := (ss.putStr packet.name).putStr " "
  let ss := (((((ss.putStr "Op:0x").hex).setw 4).setfill '0').putUnsigned packet.rawHeaderId.val).dec
  let ss := (ss.putStr " | Sz:").putSigned 32 displaySize
  let ss := (ss.putStr " | ").putStr dataHexStr
  ss.str

/-- `std::string FormatDisplayLogEntryString(const PacketInfo& packet, int maxHexBytes)` -/
def FormatDisplayLogEntryString (clk : Clock) (packet : PacketInfo) (maxHexBytes : Int) :
    String :=
  let timestampStr := FormatTimestamp clk packet.timestamp
  let directionStr := if packet.direction = PacketDirection.Sent then "[S]" else "[R]"
  let displaySize := toInt32 packet.data.length
  let dataHexStr := FormatBytesToHex packet.data maxHexBytes
  composeLine timestampStr directionStr packet displaySize dataHexStr

/-- `std::string FormatFullLogEntryString(const PacketInfo& packet)` -/
def FormatFullLogEntryString (clk : Clock) (packet : PacketInfo) : String :=
  let timestampStr := FormatTimestamp clk packet.timestamp
  let directionStr := if packet.direction = PacketDirection.Sent then "[S]" else "[R]"
  let displaySize := toInt32 packet.data.length
  let dataHexStr := FormatBytesToHex packet.data (-1)
  composeLine timestampStr directionStr packet displaySize dataHexStr

/-! ## Concrete inputs used below -/

/-- A clock with 10000 ticks per millisecond (100 ns ticks) whose local-time
conversion reads the time of day off the second count (no zone offset). -/
def sampleClock : Clock where
  ticksPerMilli := 10000
  localtime_s := fun t =>
    ⟨(t % 86400 / 3600).toNat, (t % 3600 / 60).toNat, (t % 60).toNat⟩

/-- The record of the first end-to-end example: Sent, payload `01 02 03`,
header `0x00AB`, name `Login`, captured 45296.789 s after the epoch. -/
def loginPacket : PacketInfo where
  timestamp := 452967890000
  size := 3
  data := [1, 2, 3]
  direction := PacketDirection.Sent
  rawHeaderId := 0x00AB
  name := "Login"

/-- A record whose `size` field (7) differs from the length of its payload (one
byte); all other fields are the defaults of the header. -/
def mismatchedPacket : PacketInfo where
  timestamp := 0
  size := 7
  data := [1]
  direction := PacketDirection.Received

/-! ## Reference renderings used to state the theorems -/

/-- Exactly `k` digits of `n` in the given base, most significant first, with
leading zeros. -/
def fixedDigits (base : Nat) (upper : Bool) : Nat → Nat → List Char
  | 0, _ => []
  | k + 1, n => fixedDigits base upper k (n / base) ++ [digitChar upper (n % base)]

/-- Two uppercase hexadecimal digits of a byte, high nibble first. -/
def hexByte (b : Fin 256) : String :=
  ⟨[digitChar true (b.val / 16), digitChar true (b.val % 16)]⟩

/-- The uppercase hexadecimal digit characters. -/
def upperHexDigits : List Char := "0123456789ABCDEF".data

/-- The bytes joined by single spaces, each as two uppercase hex digits. -/
def hexJoin (bytes : List (Fin 256)) : String := " ".intercalate (bytes.map hexByte)

/-- The direction tag of a line. -/
def directionTag : PacketDirection → String
  | PacketDirection.Sent => "[S]"
  | PacketDirection.Received => "[R]"

/-- The four characters the composers print for `rawHeaderId`: its hexadecimal
digits with leading zeros, in the lowercase alphabet of a stream without
`std::uppercase`. -/
def opcodeField (p : PacketInfo) : String := ⟨fixedDigits 16 false 4 p.rawHeaderId.val⟩

/-- Everything a composed line holds in front of the size numeral. -/
def lineHead (clk : Clock) (p : PacketInfo) : String :=
  FormatTimestamp clk p.timestamp ++ " " ++ directionTag p.direction ++ " " ++ p.name
    ++ " Op:0x" ++ opcodeField p ++ " | Sz:"

/-- A freshly created record: every member with a default initialiser in the
header takes it.  `timestamp` and `direction` have none and are arguments. -/
def defaultPacket (ts : Int) (dir : PacketDirection) : PacketInfo where
  timestamp := ts
  direction := dir

/-- The decimal digit characters. -/
def decimalDigits : List Char := "0123456789".data

/-- The hexadecimal digit characters the composers can print for an opcode. -/
def lowerHexDigits : List Char := "0123456789abcdef".data

/-- Value of a digit character, letters read case-insensitively (`a` and `A`
are both ten); 0 for any other character. -/
def digitValue (c : Char) : Nat :=
  if 48 ≤ c.toNat ∧ c.toNat ≤ 57 then c.toNat - 48
  else if 65 ≤ c.toNat ∧ c.toNat ≤ 70 then c.toNat - 55
  else if 97 ≤ c.toNat ∧ c.toNat ≤ 102 then c.toNat - 87
  else 0

/-- Reads a digit string in the given base, most significant digit first. -/
def readDigits (base : Nat) (cs : List Char) : Nat :=
  cs.foldl (fun v c => base * v + digitValue c) 0

/-- Reads a hex line back: split on spaces, each token read in base 16. -/
def decodeHexLine (s : String) : List Nat :=
  (s.data.splitOn ' ').map (readDigits 16)

/-- The `HH:MM:SS` part of a timestamp, as `put_time` writes it. -/
def clockPart (clk : Clock) (tp : Int) : String :=
  twoDigit (clk.localtime_s (to_time_t clk tp)).tm_hour ++ ":"
    ++ twoDigit (clk.localtime_s (to_time_t clk tp)).tm_min ++ ":"
    ++ twoDigit (clk.localtime_s (to_time_t clk tp)).tm_sec

/-- Whole milliseconds elapsed since the epoch at a non-negative tick count,
modulo 1000. -/
def millisOfEpoch (clk : Clock) (tp : Int) : Nat := tp.toNat / clk.ticksPerMilli % 1000

/-- The three characters a timestamp at or after the epoch carries behind its
`.`: the milliseconds in decimal, with leading zeros. -/
def millisField (clk : Clock) (tp : Int) : String :=
  ⟨fixedDigits 10 false 3 (millisOfEpoch clk tp)⟩

/-! ## Numeric insertion -/

theorem digitChar_zero (upper : Bool) : digitChar upper 0 = '0' := by
  cases upper <;> rfl

theorem digitsCore_acc (base : Nat) (upper : Bool) (fuel : Nat) :
    ∀ (n : Nat) (acc : List Char),
      digitsCore base upper fuel n acc = digitsCore base upper fuel n [] ++ acc := by
  induction fuel with
  | zero => intro n acc; simp [digitsCore]
  | succ fuel ih =>
    intro n acc
    simp only [digitsCore]
    split
    · simp
    · rw [ih (n / base) (digitChar upper (n % base) :: acc),
        ih (n / base) [digitChar upper (n % base)]]
      simp

theorem fixedDigits_length (base : Nat) (upper : Bool) (k : Nat) :
    ∀ n, (fixedDigits base upper k n).length = k := by
  induction k with
  | zero => intro n; rfl
  | succ k ih => intro n; simp [fixedDigits, ih]

theorem fixedDigits_zero (base : Nat) (upper : Bool) (k : Nat) :
    fixedDigits base upper k 0 = List.replicate k '0' := by
  induction k with
  | zero => rfl
  | succ k ih =>
    simp only [fixedDigits, Nat.zero_div, Nat.zero_mod, ih, digitChar_zero]
    exact (List.replicate_succ' k '0').symm

/-- Zero-padding the shortest rendering of `n < base ^ k` to width `k` gives
the fixed-width rendering. -/
theorem pad_digitsCore (base : Nat) (upper : Bool) (hb : 2 ≤ base) (k : Nat) :
    ∀ (n fuel : Nat), n < base ^ (k + 1) → n < fuel →
      (digitsCore base upper fuel n []).length ≤ k + 1 ∧
      List.replicate (k + 1 - (digitsCore base upper fuel n []).length) '0'
          ++ digitsCore base upper fuel n [] = fixedDigits base upper (k + 1) n := by
  induction k with
  | zero =>
    intro n fuel hn hf
    obtain ⟨f, rfl⟩ : ∃ f, fuel = f + 1 := ⟨fuel - 1, by omega⟩
    have h0 : n / base = 0 := Nat.div_eq_of_lt (by simpa using hn)
    simp [digitsCore, h0, fixedDigits]
  | succ k ih =>
    intro n fuel hn hf
    obtain ⟨f, rfl⟩ : ∃ f, fuel = f + 1 := ⟨fuel - 1, by omega⟩
    by_cases h0 : n / base = 0
    · have : fixedDigits base upper (k + 1 + 1) n
          = List.replicate (k + 1) '0' ++ [digitChar upper (n % base)] := by
        rw [fixedDigits, h0, fixedDigits_zero]
      simp [digitsCore, h0, this]
    · have hpos : 0 < n := by
        rcases Nat.eq_zero_or_pos n with h | h
        · subst h; simp at h0
        · exact h
      have hlt : n / base < n := Nat.div_lt_self hpos (by omega)
      have hq : n / base < base ^ (k + 1) := by
        rw [Nat.div_lt_iff_lt_mul (by omega)]
        simpa [pow_succ] using hn
      obtain ⟨hlen, hpad⟩ := ih (n / base) f hq (by omega)
      have hstep : digitsCore base upper (f + 1) n []
          = digitsCore base upper f (n / base) [] ++ [digitChar upper (n % base)] := by
        simp only [digitsCore, if_neg h0]
        exact digitsCore_acc base upper f (n / base) _
      rw [hstep]
      refine ⟨by simpa using hlen, ?_⟩
      rw [fixedDigits, ← hpad, List.length_append, List.length_singleton,
        ← List.append_assoc]
      congr 1
      rw [Nat.add_sub_add_right]

theorem padded_natDigits (s : OStream) (base : Nat) (upper : Bool) (k n : Nat)
    (hb : 2 ≤ base) (hn : n < base ^ (k + 1)) (hw : s.width = k + 1) (hf : s.fill = '0') :
    s.padded (natDigits base upper n) = ⟨fixedDigits base upper (k + 1) n⟩ := by
  obtain ⟨-, hpad⟩ := pad_digitsCore base upper hb k n (n + 1) hn (Nat.lt_succ_self n)
  apply String.ext
  simp only [OStream.padded, natDigits, String.data_append, String.length_mk, hw, hf]
  exact hpad

theorem hexByte_eq_fixedDigits (b : Fin 256) : hexByte b = ⟨fixedDigits 16 true 2 b.val⟩ := by
  have h : b.val / 16 % 16 = b.val / 16 := Nat.mod_eq_of_lt (by omega)
  simp [hexByte, fixedDigits, h]

/-- The insertion of one byte (source line 47) appends its two uppercase hex
digits, whatever the flags were before, and leaves the width at 0. -/
theorem putByte_buf (s : OStream) (b : Fin 256) :
    (((((s.hex).uppercase).setw 2).setfill '0').putSigned 32 (b.val : Int)).buf
      = s.buf ++ hexByte b := by
  have hval : (((b.val : Nat) : Int) % 2 ^ 32).toNat = b.val := by
    have : ((b.val : Nat) : Int) % 2 ^ 32 = ((b.val : Nat) : Int) :=
      Int.emod_eq_of_lt (by omega) (by omega)
    rw [this]; simp
  have hpad := padded_natDigits ((((s.hex).uppercase).setw 2).setfill '0') 16 true 1 b.val
    (by omega) (by omega) rfl rfl
  simp only [OStream.putSigned, OStream.putStr, OStream.intText, OStream.natText]
  simp only [OStream.hex, OStream.uppercase, OStream.setw, OStream.setfill, if_true, hval] at hpad ⊢
  rw [hpad, hexByte_eq_fixedDigits]

theorem putByte_width (s : OStream) (b : Fin 256) :
    (((((s.hex).uppercase).setw 2).setfill '0').putSigned 32 (b.val : Int)).width = 0 := rfl

theorem putStr_buf (s : OStream) (x : String) (hw : s.width = 0) :
    (s.putStr x).buf = s.buf ++ x := by
  simp [OStream.putStr, OStream.padded, hw]

theorem putStr_width (s : OStream) (x : String) : (s.putStr x).width = 0 := rfl

/-! ## The loop of `FormatBytesToHex` -/

/-- While the limit is not reached, every iteration after the first appends a
space and the byte; the counter advances by one per byte. -/
theorem hexLoop_nobreak (m : Int) :
    ∀ (bs : List (Fin 256)) (st : HexLoop), st.ss.width = 0 → 0 < st.count →
      (m ≤ 0 ∨ st.count + bs.length ≤ m) →
      (hexLoop m bs st).ss.buf = String.intercalate.go st.ss.buf " " (bs.map hexByte) ∧
      (hexLoop m bs st).ss.width = 0 ∧
      (hexLoop m bs st).count = st.count + bs.length ∧
      (hexLoop m bs st).truncated = st.truncated := by
  intro bs
  induction bs with
  | nil => intro st hw _ _; simp [hexLoop, String.intercalate.go, hw]
  | cons b rest ih =>
    intro st hw hc hm
    have hnb : ¬ (m > 0 ∧ st.count ≥ m) := by
      rintro ⟨h1, h2⟩
      rcases hm with h | h
      · omega
      · simp only [List.length_cons, Nat.cast_add, Nat.cast_one] at h; omega
    have hm' : m ≤ 0 ∨ st.count + 1 + (rest.length : Int) ≤ m := by
      rcases hm with h | h
      · exact Or.inl h
      · right; simp only [List.length_cons, Nat.cast_add, Nat.cast_one] at h; omega
    simp only [hexLoop, if_neg hnb, if_pos hc]
    obtain ⟨h1, h2, h3, h4⟩ := ih
      { st with
        ss := (((((st.ss.putStr " ").hex).uppercase).setw 2).setfill '0').putSigned 32
          (b.val : Int),
        count := st.count + 1 }
      (putByte_width _ b) (by simp only; omega) hm'
    refine ⟨?_, h2, ?_, h4⟩
    · rw [h1]
      simp only [List.map_cons, String.intercalate.go, putByte_buf, putStr_buf _ _ hw]
    · rw [h3]; simp only [List.length_cons, Nat.cast_add, Nat.cast_one]; omega

/-- From the initial state: without a break the stream holds the bytes joined
by single spaces. -/
theorem hexLoop_fresh_nobreak (m : Int) (bs : List (Fin 256))
    (hm : m ≤ 0 ∨ (bs.length : Int) ≤ m) :
    (hexLoop m bs ⟨OStream.fresh, 0, false⟩).ss.buf = " ".intercalate (bs.map hexByte) ∧
    (hexLoop m bs ⟨OStream.fresh, 0, false⟩).ss.width = 0 ∧
    (hexLoop m bs ⟨OStream.fresh, 0, false⟩).count = bs.length ∧
    (hexLoop m bs ⟨OStream.fresh, 0, false⟩).truncated = false := by
  cases bs with
  | nil => simp [hexLoop, String.intercalate, OStream.fresh]
  | cons b rest =>
    have hnb : ¬ (m > 0 ∧ (0 : Int) ≥ m) := by omega
    have hm' : m ≤ 0 ∨ (0 : Int) + 1 + (rest.length : Int) ≤ m := by
      rcases hm with h | h
      · exact Or.inl h
      · right; simp only [List.length_cons, Nat.cast_add, Nat.cast_one] at h; omega
    simp only [hexLoop, if_neg hnb, lt_irrefl, if_false]
    obtain ⟨h1, h2, h3, h4⟩ := hexLoop_nobreak m rest
      { ss := ((((OStream.fresh.hex).uppercase).setw 2).setfill '0').putSigned 32 (b.val : Int),
        count := 0 + 1, truncated := false }
      (putByte_width _ b) (by simp) hm'
    refine ⟨?_, h2, ?_, h4⟩
    · rw [h1]
      simp only [List.map_cons, String.intercalate, putByte_buf]
      simp [OStream.fresh]
    · rw [h3]; simp only [List.length_cons, Nat.cast_add, Nat.cast_one]; omega

theorem hexLoop_append (m : Int) (ys : List (Fin 256)) :
    ∀ (xs : List (Fin 256)) (st : HexLoop), (m ≤ 0 ∨ st.count + xs.length ≤ m) →
      hexLoop m (xs ++ ys) st = hexLoop m ys (hexLoop m xs st) := by
  intro xs
  induction xs with
  | nil => intro st _; simp [hexLoop]
  | cons b rest ih =>
    intro st hm
    have hnb : ¬ (m > 0 ∧ st.count ≥ m) := by
      rintro ⟨h1, h2⟩
      rcases hm with h | h
      · omega
      · simp only [List.length_cons, Nat.cast_add, Nat.cast_one] at h; omega
    simp only [List.cons_append, hexLoop, if_neg hnb]
    apply ih
    rcases hm with h | h
    · exact Or.inl h
    · right; simp only [List.length_cons, Nat.cast_add, Nat.cast_one] at h ⊢; omega

/-- Characters of a join: the accumulator, then each further word behind one
copy of the separator. -/
theorem intercalate_go_data (sep : String) :
    ∀ (ws : List String) (acc : String),
      (String.intercalate.go acc sep ws).data
        = acc.data ++ (ws.map fun w => sep.data ++ w.data).flatten := by
  intro ws
  induction ws with
  | nil => intro acc; simp [String.intercalate.go]
  | cons w rest ih =>
    intro acc
    simp [String.intercalate.go, ih, List.append_assoc]

theorem hexByte_data (b : Fin 256) :
    (hexByte b).data = [digitChar true (b.val / 16), digitChar true (b.val % 16)] := rfl

/-- The joined rendering of a non-empty sequence starts with the first byte's
digits: it is not the empty string. -/
theorem hexJoin_data_cons (b : Fin 256) (rest : List (Fin 256)) :
    (" ".intercalate ((b :: rest).map hexByte)).data
      = digitChar true (b.val / 16) :: digitChar true (b.val % 16)
          :: (rest.map fun x => ' ' :: (hexByte x).data).flatten := by
  simp only [List.map_cons, String.intercalate, intercalate_go_data, hexByte_data,
    List.map_map]
  rfl

theorem FormatBytesToHex_nil (m : Int) : FormatBytesToHex [] m = "(empty)" := by
  simp [FormatBytesToHex]

/-- Closed form without truncation: limit non-positive, or not below the
length. -/
theorem FormatBytesToHex_full (bs : List (Fin 256)) (m : Int) (hne : bs ≠ [])
    (hm : m ≤ 0 ∨ (bs.length : Int) ≤ m) :
    FormatBytesToHex bs m = " ".intercalate (bs.map hexByte) := by
  obtain ⟨h1, -, h3, -⟩ := hexLoop_fresh_nobreak m bs hm
  obtain ⟨b, rest, rfl⟩ := List.exists_cons_of_ne_nil hne
  have hcount : ¬ (hexLoop m (b :: rest) ⟨OStream.fresh, 0, false⟩).count = 0 := by
    rw [h3]; simp only [List.length_cons, Nat.cast_add, Nat.cast_one]; omega
  have hbuf : ¬ (hexLoop m (b :: rest) ⟨OStream.fresh, 0, false⟩).ss.str.isEmpty = true := by
    rw [String.isEmpty_iff, OStream.str, h1, String.ext_iff, hexJoin_data_cons]
    simp
  simp only [FormatBytesToHex, List.isEmpty_cons, Bool.false_eq_true, if_false, hcount,
    false_and, hbuf]
  exact h1

/-- Closed form with truncation: the first `m` bytes joined by spaces, then
`...` directly behind the last digit. -/
theorem FormatBytesToHex_trunc (bs : List (Fin 256)) (m : Int) (h0 : 0 < m)
    (hlen : m < (bs.length : Int)) :
    FormatBytesToHex bs m = " ".intercalate ((bs.take m.toNat).map hexByte) ++ "..." := by
  have hmn : (m.toNat : Int) = m := Int.toNat_of_nonneg (le_of_lt h0)
  have hk : m.toNat < bs.length := by omega
  have hsplit : bs = bs.take m.toNat ++ bs.drop m.toNat := (List.take_append_drop _ _).symm
  have htl : (bs.take m.toNat).length = m.toNat := List.length_take_of_le (le_of_lt hk)
  obtain ⟨y, ys, hdrop⟩ : ∃ y ys, bs.drop m.toNat = y :: ys :=
    List.exists_cons_of_ne_nil (by
      intro h
      have := congrArg List.length h
      simp at this; omega)
  obtain ⟨h1, h2, h3, h4⟩ := hexLoop_fresh_nobreak m (bs.take m.toNat)
    (Or.inr (by rw [htl]; omega))
  have hloop : hexLoop m bs ⟨OStream.fresh, 0, false⟩
      = { hexLoop m (bs.take m.toNat) ⟨OStream.fresh, 0, false⟩ with
          ss := (hexLoop m (bs.take m.toNat) ⟨OStream.fresh, 0, false⟩).ss.putStr "...",
          truncated := true } := by
    conv_lhs => rw [hsplit]
    rw [hexLoop_append m _ _ _ (Or.inr (by simp only [htl]; omega)), hdrop]
    have hbr : m > 0 ∧ (hexLoop m (bs.take m.toNat) ⟨OStream.fresh, 0, false⟩).count ≥ m := by
      rw [h3, htl]; omega
    simp only [hexLoop, if_pos hbr]
  have hne : bs ≠ [] := by
    intro h; subst h; simp at hk
  have hemp : bs.isEmpty = false := by
    cases bs with
    | nil => exact absurd rfl hne
    | cons _ _ => rfl
  simp only [FormatBytesToHex, hemp, hloop, Bool.false_eq_true, if_false, h3, htl,
    not_true_eq_false, and_false, OStream.str, putStr_buf _ _ h2, h1]
  have hc : ¬ m ≤ 0 := by omega
  simp [hc]

/-! ## Decimal insertion and the composed line -/

theorem digitChar_eq_digitChar (upper : Bool) (d : Nat) (hd : d < 10) :
    digitChar upper d = Nat.digitChar d := by
  have : d = 0 ∨ d = 1 ∨ d = 2 ∨ d = 3 ∨ d = 4 ∨ d = 5 ∨ d = 6 ∨ d = 7 ∨ d = 8 ∨ d = 9 := by
    omega
  rcases this with h | h | h | h | h | h | h | h | h | h <;> subst h <;> rfl

theorem digitsCore_ten (upper : Bool) (fuel : Nat) :
    ∀ (n : Nat) (acc : List Char),
      digitsCore 10 upper fuel n acc = Nat.toDigitsCore 10 fuel n acc := by
  induction fuel with
  | zero => intro n acc; simp [digitsCore, Nat.toDigitsCore]
  | succ fuel ih =>
    intro n acc
    simp only [digitsCore, Nat.toDigitsCore, ih,
      digitChar_eq_digitChar upper (n % 10) (Nat.mod_lt _ (by omega))]

/-- In base ten the inserter writes the usual decimal numeral. -/
theorem natDigits_ten (upper : Bool) (n : Nat) : natDigits 10 upper n = toString n := by
  simp only [natDigits, digitsCore_ten]
  rfl

/-- A signed value inserted in decimal is its usual decimal numeral. -/
theorem intText_dec (s : OStream) (bits : Nat) (x : Int) (hd : s.hexBase = false) :
    s.intText bits x = toString x := by
  simp only [OStream.intText, OStream.natText, hd, Bool.false_eq_true, if_false, natDigits_ten]
  cases x with
  | ofNat n =>
    have h : ¬ (Int.ofNat n < 0) := by simp
    rw [if_neg h]; rfl
  | negSucc n =>
    have h : Int.negSucc n < 0 := Int.negSucc_lt_zero n
    rw [if_pos h]
    rfl

theorem padded_width_zero (s : OStream) (x : String) (hw : s.width = 0) : s.padded x = x := by
  apply String.ext
  simp [OStream.padded, hw]

/-- The insertion chain of the composers, written out. -/
theorem composeLine_eq (ts dir : String) (p : PacketInfo) (sz : Int) (hexStr : String) :
    composeLine ts dir p sz hexStr
      = ts ++ " " ++ dir ++ " " ++ p.name ++ " Op:0x" ++ opcodeField p ++ " | Sz:"
          ++ toString sz ++ " | " ++ hexStr := by
  have hop : ∀ buf : String,
      (⟨buf, true, false, 4, '0'⟩ : OStream).padded (natDigits 16 false p.rawHeaderId.val)
        = opcodeField p := by
    intro buf
    exact padded_natDigits _ 16 false 3 p.rawHeaderId.val (by omega)
      (by have := p.rawHeaderId.isLt; omega) rfl rfl
  have hsz : ∀ (buf : String) (w : Nat) (f : Char),
      (⟨buf, false, false, w, f⟩ : OStream).intText 32 sz = toString sz := by
    intro buf w f
    exact intText_dec _ 32 sz rfl
  simp only [composeLine, OStream.fresh, OStream.putStr, OStream.hex, OStream.dec,
    OStream.setw, OStream.setfill, OStream.putUnsigned, OStream.putSigned, OStream.str,
    OStream.natText, if_true, hsz]
  have hz : ∀ (buf : String) (hb up : Bool) (f : Char) (x : String),
      (⟨buf, hb, up, 0, f⟩ : OStream).padded x = x :=
    fun buf hb up f x => padded_width_zero _ x rfl
  simp only [hz]
  have h4 : (4 : Int).toNat = 4 := rfl
  simp only [h4, hop, String.append_assoc, String.empty_append]
  rfl

/-! ## Characters of the hex rendering -/

theorem digitChar_upper_mem (d : Nat) (hd : d < 16) : digitChar true d ∈ upperHexDigits := by
  have : d = 0 ∨ d = 1 ∨ d = 2 ∨ d = 3 ∨ d = 4 ∨ d = 5 ∨ d = 6 ∨ d = 7 ∨ d = 8 ∨ d = 9 ∨
      d = 10 ∨ d = 11 ∨ d = 12 ∨ d = 13 ∨ d = 14 ∨ d = 15 := by omega
  rcases this with h | h | h | h | h | h | h | h | h | h | h | h | h | h | h | h <;>
    subst h <;> decide

/-- A rendered byte is two characters, both uppercase hex digits. -/
theorem hexByte_shape (b : Fin 256) :
    (hexByte b).length = 2 ∧ ∀ c ∈ (hexByte b).data, c ∈ upperHexDigits := by
  refine ⟨rfl, ?_⟩
  intro c hc
  rw [hexByte_data] at hc
  simp only [List.mem_cons, List.mem_singleton, List.not_mem_nil, or_false] at hc
  rcases hc with h | h
  · rw [h]; exact digitChar_upper_mem _ (by omega)
  · rw [h]; exact digitChar_upper_mem _ (by omega)

theorem hexJoin_nil : hexJoin [] = "" := rfl

theorem hexJoin_chars (bs : List (Fin 256)) :
    ∀ c ∈ (hexJoin bs).data, c ∈ upperHexDigits ∨ c = ' ' := by
  cases bs with
  | nil => intro c hc; simp [hexJoin_nil] at hc
  | cons b rest =>
    intro c hc
    rw [hexJoin, hexJoin_data_cons] at hc
    simp only [List.mem_cons, List.mem_flatten, List.mem_map] at hc
    rcases hc with h | h | ⟨l, ⟨x, -, rfl⟩, h⟩
    · left; rw [h]; exact digitChar_upper_mem _ (by omega)
    · left; rw [h]; exact digitChar_upper_mem _ (by omega)
    · simp only [List.mem_cons] at h
      rcases h with h | h
      · right; exact h
      · left; exact (hexByte_shape x).2 c h

/-- The joined rendering holds no `.` at all, hence no `...` marker. -/
theorem hexJoin_no_marker (bs : List (Fin 256)) : ¬ "...".data <:+: (hexJoin bs).data := by
  intro h
  have hdot : '.' ∈ (hexJoin bs).data := h.subset (by decide)
  rcases hexJoin_chars bs '.' hdot with h | h
  · exact absurd h (by decide)
  · exact absurd h (by decide)

theorem hexJoin_head (b : Fin 256) (rest : List (Fin 256)) :
    (hexJoin (b :: rest)).data.head? = some (digitChar true (b.val / 16)) := by
  rw [hexJoin, hexJoin_data_cons]; rfl

theorem words_getLast (rest : List (Fin 256)) :
    ∀ c0 : Char, c0 ∈ upperHexDigits →
      ∃ c ∈ upperHexDigits,
        (c0 :: (rest.map fun x => ' ' :: (hexByte x).data).flatten).getLast? = some c := by
  induction rest with
  | nil => intro c0 h0; exact ⟨c0, h0, rfl⟩
  | cons x rest ih =>
    intro c0 _
    obtain ⟨c, hc, hlast⟩ := ih (digitChar true (x.val % 16)) (digitChar_upper_mem _ (by omega))
    refine ⟨c, hc, ?_⟩
    simp only [List.map_cons, List.flatten_cons, hexByte_data, List.cons_append,
      List.nil_append, List.getLast?_cons_cons]
    exact hlast

theorem hexJoin_getLast (bs : List (Fin 256)) (hne : bs ≠ []) :
    ∃ c ∈ upperHexDigits, (hexJoin bs).data.getLast? = some c := by
  obtain ⟨b, rest, rfl⟩ := List.exists_cons_of_ne_nil hne
  obtain ⟨c, hc, hlast⟩ := words_getLast rest (digitChar true (b.val % 16))
    (digitChar_upper_mem _ (by omega))
  refine ⟨c, hc, ?_⟩
  rw [hexJoin, hexJoin_data_cons, List.getLast?_cons_cons]
  exact hlast

theorem space_not_upperHex : ' ' ∉ upperHexDigits := by decide

/-- Without truncation the limit does not matter. -/
theorem FormatBytesToHex_unlimited (bs : List (Fin 256)) (m : Int)
    (hm : m ≤ 0 ∨ (bs.length : Int) ≤ m) :
    FormatBytesToHex bs m = FormatBytesToHex bs (-1) := by
  by_cases hne : bs = []
  · subst hne; rw [FormatBytesToHex_nil, FormatBytesToHex_nil]
  · rw [FormatBytesToHex_full bs m hne hm, FormatBytesToHex_full bs (-1) hne (Or.inl (by omega))]

theorem FormatBytesToHex_unlimited_no_marker (bs : List (Fin 256)) :
    ¬ "...".data <:+: (FormatBytesToHex bs (-1)).data := by
  by_cases hne : bs = []
  · subst hne; rw [FormatBytesToHex_nil]; decide
  · rw [FormatBytesToHex_full bs (-1) hne (Or.inl (by omega))]
    exact hexJoin_no_marker bs

/-! ## The hex renderer under a positive limit (C1, C9, C10) -/

/-- C1, as stated, fails at payload `01 02 03` with limit 2: the code returns
`01 02...`, while the first two bytes followed by a space and `...` would be
`01 02 ...`. -/
theorem truncation_marker_space_counterexample :
    FormatBytesToHex [1, 2, 3] 2 = "01 02..." ∧
    hexJoin (List.take 2 [1, 2, 3]) ++ " " ++ "..." = "01 02 ..." ∧
    FormatBytesToHex [1, 2, 3] 2 ≠ hexJoin (List.take 2 [1, 2, 3]) ++ " " ++ "..." := by
  decide

/-- C1 (amended): for every byte sequence `b` and limit `m` with `0 < m < len b`,
`FormatBytesToHex b m` is the space-separated two-digit uppercase hex rendering
of the first `m` bytes followed directly by `...`, with no space in between. -/
theorem FormatBytesToHex_truncated (b : List (Fin 256)) (m : Int) (h0 : 0 < m)
    (hlen : m < (b.length : Int)) :
    FormatBytesToHex b m = hexJoin (b.take m.toNat) ++ "..." ∧
    ∀ x : Fin 256, (hexByte x).length = 2 ∧ ∀ c ∈ (hexByte x).data, c ∈ upperHexDigits :=
  ⟨FormatBytesToHex_trunc b m h0 hlen, hexByte_shape⟩

/-- C1 (amended) at payload `01 02 03`, limit 2. -/
theorem FormatBytesToHex_truncated_witness :
    (0 : Int) < 2 ∧ (2 : Int) < (([1, 2, 3] : List (Fin 256)).length : Int) ∧
    FormatBytesToHex [1, 2, 3] 2 = hexJoin (List.take (2 : Int).toNat [1, 2, 3]) ++ "..." :=
  ⟨by decide, by decide, (FormatBytesToHex_truncated [1, 2, 3] 2 (by decide) (by decide)).1⟩

/-- C9: for every byte sequence `b` and limit `m > 0` with `len b ≤ m`,
`FormatBytesToHex b m = FormatBytesToHex b (-1)` and the result contains no
`...` marker. -/
theorem FormatBytesToHex_limit_not_reached (b : List (Fin 256)) (m : Int) (_h0 : 0 < m)
    (hlen : (b.length : Int) ≤ m) :
    FormatBytesToHex b m = FormatBytesToHex b (-1) ∧
    ¬ "...".data <:+: (FormatBytesToHex b m).data := by
  have h := FormatBytesToHex_unlimited b m (Or.inr hlen)
  refine ⟨h, ?_⟩
  rw [h]
  exact FormatBytesToHex_unlimited_no_marker b

/-- C9 at payload `0A FF` with limit 2 (the length itself). -/
theorem FormatBytesToHex_limit_not_reached_witness :
    (0 : Int) < 2 ∧ (([10, 255] : List (Fin 256)).length : Int) ≤ 2 ∧
    FormatBytesToHex [10, 255] 2 = FormatBytesToHex [10, 255] (-1) ∧
    ¬ "...".data <:+: (FormatBytesToHex [10, 255] 2).data :=
  ⟨by decide, by decide, FormatBytesToHex_limit_not_reached [10, 255] 2 (by decide) (by decide)⟩

/-- C10: for every non-empty byte sequence `b` and limit `m` with `0 < m < len b`,
`FormatBytesToHex b m` has `FormatBytesToHex (first m bytes of b) (-1)` as a
prefix and `...` as a suffix; it is exactly the one followed by the other. -/
theorem FormatBytesToHex_starts_and_ends (b : List (Fin 256)) (m : Int) (hne : b ≠ [])
    (h0 : 0 < m) (hlen : m < (b.length : Int)) :
    (FormatBytesToHex (b.take m.toNat) (-1)).data <+: (FormatBytesToHex b m).data ∧
    "...".data <:+ (FormatBytesToHex b m).data ∧
    FormatBytesToHex b m = FormatBytesToHex (b.take m.toNat) (-1) ++ "..." := by
  have hmn : (m.toNat : Int) = m := Int.toNat_of_nonneg (le_of_lt h0)
  have htake : b.take m.toNat ≠ [] := by
    obtain ⟨x, rest, rfl⟩ := List.exists_cons_of_ne_nil hne
    obtain ⟨k, hk⟩ : ∃ k, m.toNat = k + 1 := ⟨m.toNat - 1, by omega⟩
    rw [hk]; simp
  have hfull := FormatBytesToHex_full (b.take m.toNat) (-1) htake (Or.inl (by omega))
  have heq : FormatBytesToHex b m = FormatBytesToHex (b.take m.toNat) (-1) ++ "..." := by
    rw [hfull]; exact FormatBytesToHex_trunc b m h0 hlen
  refine ⟨?_, ?_, heq⟩
  · rw [heq, String.data_append]; exact List.prefix_append _ _
  · rw [heq, String.data_append]; exact List.suffix_append _ _

/-- C10 at payload `DE AD BE EF`, limit 3. -/
theorem FormatBytesToHex_starts_and_ends_witness :
    ([0xDE, 0xAD, 0xBE, 0xEF] : List (Fin 256)) ≠ [] ∧ (0 : Int) < 3 ∧
    (3 : Int) < (([0xDE, 0xAD, 0xBE, 0xEF] : List (Fin 256)).length : Int) ∧
    "...".data <:+ (FormatBytesToHex [0xDE, 0xAD, 0xBE, 0xEF] 3).data :=
  ⟨by decide, by decide, by decide,
    (FormatBytesToHex_starts_and_ends [0xDE, 0xAD, 0xBE, 0xEF] 3 (by decide) (by decide)
      (by decide)).2.1⟩

/-! ## The hex renderer under a non-positive limit (C4, C5) -/

/-- C4: for every non-empty byte sequence `b` and every limit `m ≤ 0` (zero and
negative alike), `FormatBytesToHex b m` renders the whole sequence: each byte as
two uppercase zero-padded hex digits, consecutive bytes separated by one space,
no leading space, no trailing space, no `...` marker; and
`FormatBytesToHex b 0 = FormatBytesToHex b (-1)`. -/
theorem FormatBytesToHex_nonpositive_limit (b : List (Fin 256)) (m : Int) (hne : b ≠ [])
    (hm : m ≤ 0) :
    FormatBytesToHex b m = hexJoin b ∧
    (∀ x : Fin 256, (hexByte x).length = 2 ∧ ∀ c ∈ (hexByte x).data, c ∈ upperHexDigits) ∧
    (FormatBytesToHex b m).data.head? ≠ some ' ' ∧
    (FormatBytesToHex b m).data.getLast? ≠ some ' ' ∧
    ¬ "...".data <:+: (FormatBytesToHex b m).data ∧
    FormatBytesToHex b 0 = FormatBytesToHex b (-1) := by
  have hfull : FormatBytesToHex b m = hexJoin b := FormatBytesToHex_full b m hne (Or.inl hm)
  refine ⟨hfull, hexByte_shape, ?_, ?_, ?_, ?_⟩
  · obtain ⟨x, rest, rfl⟩ := List.exists_cons_of_ne_nil hne
    rw [hfull, hexJoin_head]
    intro h
    have hmem := digitChar_upper_mem (x.val / 16) (by omega)
    rw [Option.some.inj h] at hmem
    exact space_not_upperHex hmem
  · obtain ⟨c, hc, hlast⟩ := hexJoin_getLast b hne
    rw [hfull, hlast]
    intro h
    rw [Option.some.inj h] at hc
    exact space_not_upperHex hc
  · rw [hfull]; exact hexJoin_no_marker b
  · exact FormatBytesToHex_unlimited b 0 (Or.inl (le_refl 0))

/-- C4 at payload `01 02 AB`, limit -7. -/
theorem FormatBytesToHex_nonpositive_limit_witness :
    ([1, 2, 0xAB] : List (Fin 256)) ≠ [] ∧ (-7 : Int) ≤ 0 ∧
    FormatBytesToHex [1, 2, 0xAB] (-7) = hexJoin [1, 2, 0xAB] :=
  ⟨by decide, by decide,
    (FormatBytesToHex_nonpositive_limit [1, 2, 0xAB] (-7) (by decide) (by decide)).1⟩

/-- C5, as stated, fails at the one-byte payload `01`: with limit 0 the code
returns `01`, not the sentinel `...`. -/
theorem zero_limit_sentinel_counterexample :
    ([1] : List (Fin 256)) ≠ [] ∧ FormatBytesToHex [1] 0 = "01" ∧
    FormatBytesToHex [1] 0 ≠ "..." := by
  decide

/-- C5 (amended): for every non-empty byte sequence `b`, `FormatBytesToHex b 0`
is never the sentinel `...`; limit 0 shows every byte, the result being the
full space-separated rendering of `b`. -/
theorem FormatBytesToHex_zero_limit (b : List (Fin 256)) (hne : b ≠ []) :
    FormatBytesToHex b 0 ≠ "..." ∧ FormatBytesToHex b 0 = hexJoin b := by
  have hfull : FormatBytesToHex b 0 = hexJoin b :=
    FormatBytesToHex_full b 0 hne (Or.inl (le_refl 0))
  refine ⟨?_, hfull⟩
  intro h
  have hinf : "...".data <:+: (hexJoin b).data := by
    rw [← hfull, h]
  exact hexJoin_no_marker b hinf

/-- C5 (amended) at payload `7F 80`. -/
theorem FormatBytesToHex_zero_limit_witness :
    ([0x7F, 0x80] : List (Fin 256)) ≠ [] ∧ FormatBytesToHex [0x7F, 0x80] 0 ≠ "..." ∧
    FormatBytesToHex [0x7F, 0x80] 0 = hexJoin [0x7F, 0x80] :=
  ⟨by decide, FormatBytesToHex_zero_limit [0x7F, 0x80] (by decide)⟩

/-! ## The composed lines (C2, C3, C6, C8) -/

theorem directionStr_eq (d : PacketDirection) :
    (if d = PacketDirection.Sent then "[S]" else "[R]") = directionTag d := by
  cases d <;> rfl

theorem FormatDisplayLogEntryString_eq (clk : Clock) (p : PacketInfo) (m : Int) :
    FormatDisplayLogEntryString clk p m
      = lineHead clk p ++ toString (toInt32 p.data.length) ++ " | "
          ++ FormatBytesToHex p.data m := by
  simp only [FormatDisplayLogEntryString, composeLine_eq, directionStr_eq, lineHead]

theorem FormatFullLogEntryString_eq (clk : Clock) (p : PacketInfo) :
    FormatFullLogEntryString clk p
      = lineHead clk p ++ toString (toInt32 p.data.length) ++ " | "
          ++ FormatBytesToHex p.data (-1) := by
  simp only [FormatFullLogEntryString, composeLine_eq, directionStr_eq, lineHead]

/-- C2: the code at `rawHeaderId = 0x00AB` (Sent, name `Login`, payload
`01 02 03`): both composers print the opcode field as `00ab`, in lowercase,
where the claim requires `00AB`. -/
theorem opcode_field_lowercase_at_00AB :
    loginPacket.rawHeaderId = 0x00AB ∧
    FormatDisplayLogEntryString sampleClock loginPacket 2
      = "12:34:56.789 [S] Login Op:0x00ab | Sz:3 | 01 02..." ∧
    FormatFullLogEntryString sampleClock loginPacket
      = "12:34:56.789 [S] Login Op:0x00ab | Sz:3 | 01 02 03" := by
  decide

/-- C3: for every record `p` and limit `m`, `FormatDisplayLogEntryString p m` is,
in this order, `FormatTimestamp p.timestamp`, a space, the direction tag (`[S]`
for Sent, `[R]` for Received), a space, `p.name`, ` Op:0x`, a 4-character opcode
field, ` | Sz:`, a decimal size numeral, ` | `, and `FormatBytesToHex p.data m`. -/
theorem FormatDisplayLogEntryString_layout (clk : Clock) (p : PacketInfo) (m : Int) :
    FormatDisplayLogEntryString clk p m
      = FormatTimestamp clk p.timestamp ++ " " ++ directionTag p.direction ++ " " ++ p.name
          ++ " Op:0x" ++ opcodeField p ++ " | Sz:" ++ toString (toInt32 p.data.length)
          ++ " | " ++ FormatBytesToHex p.data m ∧
    (opcodeField p).length = 4 ∧
    directionTag PacketDirection.Sent = "[S]" ∧
    directionTag PacketDirection.Received = "[R]" := by
  refine ⟨?_, ?_, rfl, rfl⟩
  · simp only [FormatDisplayLogEntryString, composeLine_eq, directionStr_eq]
  · simp only [opcodeField, String.length_mk, fixedDigits_length]

/-- A record that keeps `size` equal to the length of its payload, `size` being
an `int` (below `2^31`): the cast `static_cast<int>(data.size())` is `size`. -/
theorem toInt32_length_eq_size (p : PacketInfo) (hinv : p.size = (p.data.length : Int))
    (hfit : p.size < 2 ^ 31) : toInt32 p.data.length = p.size := by
  have hlt : p.data.length < 2 ^ 31 := by
    have : (p.data.length : Int) < 2 ^ 31 := by rw [← hinv]; exact hfit
    exact_mod_cast this
  have hmod : p.data.length % 2 ^ 32 = p.data.length := Nat.mod_eq_of_lt (by omega)
  rw [toInt32, hmod, if_pos hlt, hinv]

/-- C6: for every record `p` that keeps the record invariant (`size` is the
length of the payload; `size` is an `int`, so below `2^31`), the numeral printed
after `Sz:` by `FormatDisplayLogEntryString` (for every limit) and by
`FormatFullLogEntryString` is the decimal rendering of the field `size`. -/
theorem size_numeral_is_size_field (clk : Clock) (p : PacketInfo) (m : Int)
    (hinv : p.size = (p.data.length : Int)) (hfit : p.size < 2 ^ 31) :
    FormatDisplayLogEntryString clk p m
      = FormatTimestamp clk p.timestamp ++ " " ++ directionTag p.direction ++ " " ++ p.name
          ++ " Op:0x" ++ opcodeField p ++ " | Sz:" ++ toString p.size
          ++ " | " ++ FormatBytesToHex p.data m ∧
    FormatFullLogEntryString clk p
      = FormatTimestamp clk p.timestamp ++ " " ++ directionTag p.direction ++ " " ++ p.name
          ++ " Op:0x" ++ opcodeField p ++ " | Sz:" ++ toString p.size
          ++ " | " ++ FormatBytesToHex p.data (-1) := by
  have hsz := toInt32_length_eq_size p hinv hfit
  constructor
  · simp only [FormatDisplayLogEntryString, composeLine_eq, directionStr_eq, hsz]
  · simp only [FormatFullLogEntryString, composeLine_eq, directionStr_eq, hsz]

/-- C6 at the `Login` record, whose `size` is 3 like its payload: both lines
print `Sz:3`. -/
theorem size_numeral_is_size_field_witness :
    loginPacket.size = (loginPacket.data.length : Int) ∧ loginPacket.size < 2 ^ 31 ∧
    toString loginPacket.size = "3" ∧
    FormatFullLogEntryString sampleClock loginPacket
      = FormatTimestamp sampleClock loginPacket.timestamp ++ " "
          ++ directionTag loginPacket.direction ++ " " ++ loginPacket.name
          ++ " Op:0x" ++ opcodeField loginPacket ++ " | Sz:" ++ toString loginPacket.size
          ++ " | " ++ FormatBytesToHex loginPacket.data (-1) :=
  ⟨by decide, by decide, by decide,
    (size_numeral_is_size_field sampleClock loginPacket 2 (by decide) (by decide)).2⟩

/-- Outside the invariant the composers still print the payload length: they
compute the numeral from `data.size()` and do not read the field `size`. -/
theorem size_numeral_outside_invariant :
    toString mismatchedPacket.size = "7" ∧
    FormatDisplayLogEntryString sampleClock mismatchedPacket 0
      = "00:00:00.000 [R] Unprocessed Op:0x0000 | Sz:1 | 01" ∧
    FormatFullLogEntryString sampleClock mismatchedPacket
      = "00:00:00.000 [R] Unprocessed Op:0x0000 | Sz:1 | 01" := by
  decide

/-- C8: for every record `p`, `FormatFullLogEntryString p` equals
`FormatDisplayLogEntryString p m` for every limit `m ≤ 0` and every limit
`m ≥ len p.data`; its hex segment is the complete payload (or `(empty)`), with
no truncation marker. -/
theorem FormatFullLogEntryString_eq_display (clk : Clock) (p : PacketInfo) (m : Int)
    (hm : m ≤ 0 ∨ (p.data.length : Int) ≤ m) :
    FormatFullLogEntryString clk p = FormatDisplayLogEntryString clk p m ∧
    FormatFullLogEntryString clk p
      = lineHead clk p ++ toString (toInt32 p.data.length) ++ " | "
          ++ (if p.data = [] then "(empty)" else hexJoin p.data) ∧
    ¬ "...".data <:+: (if p.data = [] then "(empty)" else hexJoin p.data).data := by
  have hhex : FormatBytesToHex p.data (-1)
      = if p.data = [] then "(empty)" else hexJoin p.data := by
    by_cases hne : p.data = []
    · rw [if_pos hne, hne, FormatBytesToHex_nil]
    · rw [if_neg hne]; exact FormatBytesToHex_full p.data (-1) hne (Or.inl (by omega))
  refine ⟨?_, ?_, ?_⟩
  · rw [FormatFullLogEntryString_eq, FormatDisplayLogEntryString_eq,
      FormatBytesToHex_unlimited p.data m hm]
  · rw [FormatFullLogEntryString_eq, hhex]
  · rw [← hhex]; exact FormatBytesToHex_unlimited_no_marker p.data

/-- C8 at the `Login` record with limit 3, the payload length. -/
theorem FormatFullLogEntryString_eq_display_witness :
    ((3 : Int) ≤ 0 ∨ (loginPacket.data.length : Int) ≤ 3) ∧
    FormatFullLogEntryString sampleClock loginPacket
      = FormatDisplayLogEntryString sampleClock loginPacket 3 :=
  ⟨by decide, (FormatFullLogEntryString_eq_display sampleClock loginPacket 3 (by decide)).1⟩

/-! ## The timestamp (C7) -/

/-- C7: the code at an instant 5 ms (and at one 500 ms) before the epoch, with a
local-time conversion that yields hour 0-23, minute 0-59, second 0-59 at every
instant: the millisecond field is `0-5` (resp. the four characters `-500`), not
three digits. -/
theorem FormatTimestamp_before_epoch :
    (∀ t : Int, (sampleClock.localtime_s t).tm_hour ≤ 23 ∧
      (sampleClock.localtime_s t).tm_min ≤ 59 ∧ (sampleClock.localtime_s t).tm_sec ≤ 59) ∧
    FormatTimestamp sampleClock (-50000) = "00:00:00.0-5" ∧
    FormatTimestamp sampleClock (-5000000) = "00:00:00.-500" ∧
    (FormatTimestamp sampleClock (-5000000)).length = 13 := by
  refine ⟨?_, by decide, by decide, by decide⟩
  intro t
  simp only [sampleClock]
  omega

/-! ## Empty payloads, the fallback, and bytes beyond the limit (C11, C12, C13, C16) -/

/-- C11: for every integer limit `m` (positive, zero or negative),
`FormatBytesToHex` of the empty byte sequence is exactly `(empty)`. -/
theorem FormatBytesToHex_empty_payload (m : Int) : FormatBytesToHex [] m = "(empty)" := by
  simp [FormatBytesToHex]

theorem toInt32_zero : toInt32 0 = 0 := by decide

/-- C12: for every record `p` with an empty payload, `FormatFullLogEntryString p`
is `FormatTimestamp p.timestamp`, the tag, `p.name`, ` Op:0x`, the opcode and
` | Sz:0 | (empty)`; for a freshly created record with direction Received it is
`FormatTimestamp p.timestamp` followed by
` [R] Unprocessed Op:0x0000 | Sz:0 | (empty)`. -/
theorem FormatFullLogEntryString_empty_payload (clk : Clock) (p : PacketInfo)
    (hp : p.data = []) :
    FormatFullLogEntryString clk p
      = FormatTimestamp clk p.timestamp ++ " " ++ directionTag p.direction ++ " " ++ p.name
          ++ " Op:0x" ++ opcodeField p ++ " | Sz:0 | (empty)" ∧
    ∀ ts : Int, FormatFullLogEntryString clk (defaultPacket ts PacketDirection.Received)
      = FormatTimestamp clk ts ++ " [R] Unprocessed Op:0x0000 | Sz:0 | (empty)" := by
  constructor
  · rw [FormatFullLogEntryString_eq, hp, FormatBytesToHex_nil, lineHead]
    simp only [List.length_nil, toInt32_zero, String.append_assoc]
    rfl
  · intro ts
    rw [FormatFullLogEntryString_eq, lineHead]
    simp only [defaultPacket, FormatBytesToHex_nil, List.length_nil, toInt32_zero,
      String.append_assoc, opcodeField, directionTag]
    exact congrArg (fun t => FormatTimestamp clk ts ++ t) (by decide)

/-- C12 at a freshly created Sent record. -/
theorem FormatFullLogEntryString_empty_payload_witness :
    (defaultPacket 0 PacketDirection.Sent).data = [] ∧
    FormatFullLogEntryString sampleClock (defaultPacket 0 PacketDirection.Sent)
      = FormatTimestamp sampleClock (defaultPacket 0 PacketDirection.Sent).timestamp ++ " "
          ++ directionTag (defaultPacket 0 PacketDirection.Sent).direction ++ " "
          ++ (defaultPacket 0 PacketDirection.Sent).name ++ " Op:0x"
          ++ opcodeField (defaultPacket 0 PacketDirection.Sent) ++ " | Sz:0 | (empty)" :=
  ⟨rfl, (FormatFullLogEntryString_empty_payload sampleClock
    (defaultPacket 0 PacketDirection.Sent) rfl).1⟩

theorem paren_not_hexJoin_char (bs : List (Fin 256)) : '(' ∉ (hexJoin bs).data := by
  intro h
  rcases hexJoin_chars bs '(' h with h | h
  · exact absurd h (by decide)
  · exact absurd h (by decide)

/-- C13: for every byte sequence `b` and integer limit `m`, `FormatBytesToHex b m`
is defined, being `(empty)`, the joined rendering of `b`, or the joined
rendering of the first `m` bytes followed by `...`; it is never the diagnostic
sentinel `(Error Formatting Hex?)`. -/
theorem FormatBytesToHex_never_error_sentinel (b : List (Fin 256)) (m : Int) :
    FormatBytesToHex b m ≠ "(Error Formatting Hex?)" ∧
    (FormatBytesToHex b m = "(empty)" ∨ FormatBytesToHex b m = hexJoin b ∨
      FormatBytesToHex b m = hexJoin (b.take m.toNat) ++ "...") := by
  by_cases hne : b = []
  · subst hne
    rw [FormatBytesToHex_nil]
    exact ⟨by decide, Or.inl rfl⟩
  · by_cases hm : m ≤ 0 ∨ (b.length : Int) ≤ m
    · have hfull : FormatBytesToHex b m = hexJoin b := FormatBytesToHex_full b m hne hm
      refine ⟨?_, Or.inr (Or.inl hfull)⟩
      rw [hfull]
      intro h
      have hmem : '(' ∈ (hexJoin b).data := by rw [h]; decide
      exact paren_not_hexJoin_char b hmem
    · have h0 : 0 < m := by omega
      have hlen : m < (b.length : Int) := by omega
      have htr := FormatBytesToHex_trunc b m h0 hlen
      refine ⟨?_, Or.inr (Or.inr htr)⟩
      rw [htr]
      intro h
      have hlast := congrArg (fun s : String => s.data.getLast?) h
      simp only [String.data_append, List.getLast?_append] at hlast
      have hdots : "...".data.getLast? = some '.' := rfl
      have hsent : "(Error Formatting Hex?)".data.getLast? = some ')' := rfl
      rw [hdots, hsent] at hlast
      exact absurd (Option.some.inj hlast) (by decide)

/-- C16: for every limit `m > 0` and every two byte sequences `b` and `b'` that
are both longer than `m` and agree on their first `m` bytes,
`FormatBytesToHex b m = FormatBytesToHex b' m`. -/
theorem FormatBytesToHex_ignores_tail (b b' : List (Fin 256)) (m : Int) (h0 : 0 < m)
    (hb : m < (b.length : Int)) (hb' : m < (b'.length : Int))
    (hagree : b.take m.toNat = b'.take m.toNat) :
    FormatBytesToHex b m = FormatBytesToHex b' m := by
  rw [FormatBytesToHex_trunc b m h0 hb, FormatBytesToHex_trunc b' m h0 hb', hagree]

/-- C16 at limit 2 with payloads `01 02 03` and `01 02 FF EE`. -/
theorem FormatBytesToHex_ignores_tail_witness :
    (0 : Int) < 2 ∧ (2 : Int) < (([1, 2, 3] : List (Fin 256)).length : Int) ∧
    (2 : Int) < (([1, 2, 0xFF, 0xEE] : List (Fin 256)).length : Int) ∧
    List.take (2 : Int).toNat ([1, 2, 3] : List (Fin 256))
      = List.take (2 : Int).toNat [1, 2, 0xFF, 0xEE] ∧
    FormatBytesToHex [1, 2, 3] 2 = FormatBytesToHex [1, 2, 0xFF, 0xEE] 2 :=
  ⟨by decide, by decide, by decide, by decide,
    FormatBytesToHex_ignores_tail [1, 2, 3] [1, 2, 0xFF, 0xEE] 2 (by decide) (by decide)
      (by decide) (by decide)⟩

/-! ## Fresh records (C14) -/

/-- C14: a freshly created `PacketInfo` has name `Unprocessed` (not empty),
`rawHeaderId` 0, a `size` equal to the length of its empty `data`,
`bufferState` -1 (different from -2 and from every non-negative state) and
`specialType` NORMAL. -/
theorem defaultPacket_invariants (ts : Int) (dir : PacketDirection) :
    (defaultPacket ts dir).name = "Unprocessed" ∧
    (defaultPacket ts dir).name ≠ "" ∧
    (defaultPacket ts dir).rawHeaderId = 0 ∧
    (defaultPacket ts dir).data = [] ∧
    (defaultPacket ts dir).size = ((defaultPacket ts dir).data.length : Int) ∧
    (defaultPacket ts dir).bufferState = -1 ∧
    (defaultPacket ts dir).bufferState ≠ -2 ∧
    ¬ 0 ≤ (defaultPacket ts dir).bufferState ∧
    (defaultPacket ts dir).specialType = InternalPacketType.NORMAL := by
  have hname : (defaultPacket ts dir).name = "Unprocessed" := rfl
  have hstate : (defaultPacket ts dir).bufferState = -1 := rfl
  refine ⟨hname, ?_, rfl, rfl, rfl, hstate, ?_, ?_, rfl⟩
  · rw [hname]; decide
  · rw [hstate]; decide
  · rw [hstate]; decide

/-! ## Reading digits back (C17, C18, C19) -/

theorem digitValue_digitChar (upper : Bool) (d : Nat) (hd : d < 16) :
    digitValue (digitChar upper d) = d := by
  have : d = 0 ∨ d = 1 ∨ d = 2 ∨ d = 3 ∨ d = 4 ∨ d = 5 ∨ d = 6 ∨ d = 7 ∨ d = 8 ∨ d = 9 ∨
      d = 10 ∨ d = 11 ∨ d = 12 ∨ d = 13 ∨ d = 14 ∨ d = 15 := by omega
  rcases this with h | h | h | h | h | h | h | h | h | h | h | h | h | h | h | h <;>
    subst h <;> cases upper <;> decide

theorem readDigits_snoc (base : Nat) (cs : List Char) (c : Char) :
    readDigits base (cs ++ [c]) = base * readDigits base cs + digitValue c := by
  simp [readDigits, List.foldl_append]

/-- Reading a fixed-width rendering back gives the number modulo `base ^ k`. -/
theorem readDigits_fixedDigits (base : Nat) (upper : Bool) (hb : 0 < base) (hb16 : base ≤ 16)
    (k : Nat) : ∀ n, readDigits base (fixedDigits base upper k n) = n % base ^ k := by
  induction k with
  | zero => intro n; simp [fixedDigits, readDigits, Nat.mod_one]
  | succ k ih =>
    intro n
    have hlt : n % base < 16 := lt_of_lt_of_le (Nat.mod_lt n hb) hb16
    rw [fixedDigits, readDigits_snoc, ih, digitValue_digitChar upper _ hlt, pow_succ',
      Nat.mod_mul]
    omega

theorem digitChar_lower_mem (d : Nat) (hd : d < 16) : digitChar false d ∈ lowerHexDigits := by
  have : d = 0 ∨ d = 1 ∨ d = 2 ∨ d = 3 ∨ d = 4 ∨ d = 5 ∨ d = 6 ∨ d = 7 ∨ d = 8 ∨ d = 9 ∨
      d = 10 ∨ d = 11 ∨ d = 12 ∨ d = 13 ∨ d = 14 ∨ d = 15 := by omega
  rcases this with h | h | h | h | h | h | h | h | h | h | h | h | h | h | h | h <;>
    subst h <;> decide

theorem digitChar_decimal_mem (upper : Bool) (d : Nat) (hd : d < 10) :
    digitChar upper d ∈ decimalDigits := by
  have : d = 0 ∨ d = 1 ∨ d = 2 ∨ d = 3 ∨ d = 4 ∨ d = 5 ∨ d = 6 ∨ d = 7 ∨ d = 8 ∨ d = 9 := by
    omega
  rcases this with h | h | h | h | h | h | h | h | h | h <;>
    subst h <;> cases upper <;> decide

/-- Every character of a fixed-width rendering is a digit character of a value
below the base. -/
theorem fixedDigits_chars (base : Nat) (upper : Bool) (hb : 0 < base) (k : Nat) :
    ∀ n, ∀ c ∈ fixedDigits base upper k n, ∃ d, d < base ∧ c = digitChar upper d := by
  induction k with
  | zero => intro n c hc; simp [fixedDigits] at hc
  | succ k ih =>
    intro n c hc
    rw [fixedDigits, List.mem_append, List.mem_singleton] at hc
    rcases hc with h | h
    · exact ih (n / base) c h
    · exact ⟨n % base, Nat.mod_lt n hb, h⟩

/-! ## The opcode field (C18) -/

/-- C18: for every record `p` and every limit, both composers print, right after
`Op:0x` and before ` | Sz:`, the field `opcodeField p`: exactly 4 characters,
each a hexadecimal digit, whose base-16 value (letters read without regard to
case) is `p.rawHeaderId`; records with different `rawHeaderId` have different
opcode fields. -/
theorem opcode_field_value (clk : Clock) (p : PacketInfo) (m : Int) :
    FormatDisplayLogEntryString clk p m
      = FormatTimestamp clk p.timestamp ++ " " ++ directionTag p.direction ++ " " ++ p.name
          ++ " Op:0x" ++ opcodeField p ++ " | Sz:" ++ toString (toInt32 p.data.length)
          ++ " | " ++ FormatBytesToHex p.data m ∧
    FormatFullLogEntryString clk p
      = FormatTimestamp clk p.timestamp ++ " " ++ directionTag p.direction ++ " " ++ p.name
          ++ " Op:0x" ++ opcodeField p ++ " | Sz:" ++ toString (toInt32 p.data.length)
          ++ " | " ++ FormatBytesToHex p.data (-1) ∧
    (opcodeField p).length = 4 ∧
    (∀ c ∈ (opcodeField p).data, c ∈ lowerHexDigits) ∧
    readDigits 16 (opcodeField p).data = p.rawHeaderId.val ∧
    ∀ q : PacketInfo, opcodeField p = opcodeField q → p.rawHeaderId = q.rawHeaderId := by
  have hval : ∀ r : PacketInfo, readDigits 16 (opcodeField r).data = r.rawHeaderId.val := by
    intro r
    have hlt : r.rawHeaderId.val < 16 ^ 4 := r.rawHeaderId.isLt
    simp only [opcodeField]
    rw [readDigits_fixedDigits 16 false (by omega) (by omega) 4, Nat.mod_eq_of_lt hlt]
  refine ⟨?_, ?_, ?_, ?_, hval p, ?_⟩
  · simp only [FormatDisplayLogEntryString, composeLine_eq, directionStr_eq]
  · simp only [FormatFullLogEntryString, composeLine_eq, directionStr_eq]
  · simp only [opcodeField, String.length_mk, fixedDigits_length]
  · intro c hc
    obtain ⟨d, hd, rfl⟩ := fixedDigits_chars 16 false (by omega) 4 p.rawHeaderId.val c hc
    exact digitChar_lower_mem d hd
  · intro q hq
    apply Fin.ext
    rw [← hval p, ← hval q, hq]

/-! ## The full rendering is lossless (C17) -/

theorem intercalate_words (f : Fin 256 → List Char) :
    ∀ (rest : List (Fin 256)) (w : List Char),
      [' '].intercalate (w :: rest.map f) = w ++ (rest.map fun x => ' ' :: f x).flatten := by
  intro rest
  induction rest with
  | nil => intro w; simp [List.intercalate]
  | cons x rest ih =>
    intro w
    have h := ih (f x)
    simp only [List.intercalate, List.map_cons, List.intersperse, List.flatten_cons] at h ⊢
    rw [h]
    simp

/-- The characters of the joined rendering are the two-digit words with one
space between neighbours. -/
theorem hexJoin_data_intercalate (b : Fin 256) (rest : List (Fin 256)) :
    (hexJoin (b :: rest)).data
      = [' '].intercalate ((b :: rest).map fun x => (hexByte x).data) := by
  rw [hexJoin, hexJoin_data_cons, List.map_cons, intercalate_words, hexByte_data]
  rfl

theorem readDigits_hexByte (x : Fin 256) : readDigits 16 (hexByte x).data = x.val := by
  have hlt : x.val < 16 ^ 2 := x.isLt
  rw [hexByte_eq_fixedDigits, readDigits_fixedDigits 16 true (by omega) (by omega) 2,
    Nat.mod_eq_of_lt hlt]

/-- Splitting the joined rendering on spaces and reading each word in base 16
gives the bytes back. -/
theorem decodeHexLine_hexJoin (bs : List (Fin 256)) (hne : bs ≠ []) :
    decodeHexLine (hexJoin bs) = bs.map Fin.val := by
  obtain ⟨b, rest, rfl⟩ := List.exists_cons_of_ne_nil hne
  have hsp : ∀ l ∈ (b :: rest).map (fun x => (hexByte x).data), ' ' ∉ l := by
    intro l hl hmem
    obtain ⟨x, -, rfl⟩ := List.mem_map.mp hl
    exact space_not_upperHex ((hexByte_shape x).2 ' ' hmem)
  rw [decodeHexLine, hexJoin_data_intercalate,
    List.splitOn_intercalate _ ' ' hsp (by simp), List.map_map]
  apply List.map_congr_left
  intro x _
  exact readDigits_hexByte x

/-- C17: the full-mode rendering is lossless.  For all byte sequences `a` and `b`
(empty ones included), `FormatBytesToHex a (-1) = FormatBytesToHex b (-1)`
implies `a = b`; and for non-empty `a` the output is not `(empty)`, and
splitting it on spaces and reading each token in base 16 gives `a` back. -/
theorem FormatBytesToHex_lossless (a b : List (Fin 256)) :
    (FormatBytesToHex a (-1) = FormatBytesToHex b (-1) → a = b) ∧
    (a ≠ [] → FormatBytesToHex a (-1) ≠ "(empty)" ∧
      decodeHexLine (FormatBytesToHex a (-1)) = a.map Fin.val) := by
  have hfull : ∀ l : List (Fin 256), l ≠ [] → FormatBytesToHex l (-1) = hexJoin l :=
    fun l hl => FormatBytesToHex_full l (-1) hl (Or.inl (by omega))
  have hnot : ∀ l : List (Fin 256), l ≠ [] → FormatBytesToHex l (-1) ≠ "(empty)" := by
    intro l hl h
    have hmem : '(' ∈ (hexJoin l).data := by rw [← hfull l hl, h]; decide
    exact paren_not_hexJoin_char l hmem
  constructor
  · intro h
    by_cases ha : a = []
    · by_cases hb : b = []
      · rw [ha, hb]
      · rw [ha, FormatBytesToHex_nil] at h
        exact absurd h.symm (hnot b hb)
    · by_cases hb : b = []
      · rw [hb, FormatBytesToHex_nil] at h
        exact absurd h (hnot a ha)
      · rw [hfull a ha, hfull b hb] at h
        have hdec := congrArg decodeHexLine h
        rw [decodeHexLine_hexJoin a ha, decodeHexLine_hexJoin b hb] at hdec
        exact List.map_injective_iff.mpr Fin.val_injective hdec
  · intro ha
    refine ⟨hnot a ha, ?_⟩
    rw [hfull a ha]
    exact decodeHexLine_hexJoin a ha

/-- C17 at payload `00 7F FF`, compared with itself. -/
theorem FormatBytesToHex_lossless_witness :
    ([0x00, 0x7F, 0xFF] : List (Fin 256)) ≠ [] ∧
    decodeHexLine (FormatBytesToHex [0x00, 0x7F, 0xFF] (-1))
      = ([0x00, 0x7F, 0xFF] : List (Fin 256)).map Fin.val :=
  ⟨by decide,
    ((FormatBytesToHex_lossless [0x00, 0x7F, 0xFF] [0x00, 0x7F, 0xFF]).2 (by decide)).2⟩

/-! ## The millisecond field (C19) -/

theorem digitsCore_ten_chars (upper : Bool) (fuel : Nat) :
    ∀ (n : Nat) (acc : List Char), ∀ c ∈ digitsCore 10 upper fuel n acc,
      c ∈ acc ∨ c ∈ decimalDigits := by
  induction fuel with
  | zero => intro n acc c hc; exact Or.inl hc
  | succ fuel ih =>
    intro n acc c hc
    have hd : digitChar upper (n % 10) ∈ decimalDigits :=
      digitChar_decimal_mem upper _ (Nat.mod_lt n (by omega))
    simp only [digitsCore] at hc
    split at hc
    · rcases List.mem_cons.mp hc with h | h
      · right; rw [h]; exact hd
      · exact Or.inl h
    · rcases ih _ _ c hc with h | h
      · rcases List.mem_cons.mp h with h | h
        · right; rw [h]; exact hd
        · exact Or.inl h
      · exact Or.inr h

theorem twoDigit_chars (n : Nat) : ∀ c ∈ (twoDigit n).data, c ∈ decimalDigits := by
  intro c hc
  simp only [twoDigit, natDigits, String.data_append, List.mem_append] at hc
  rcases hc with h | h
  · rw [List.eq_of_mem_replicate h]; decide
  · rcases digitsCore_ten_chars false _ _ _ c h with h | h
    · exact absurd h (List.not_mem_nil c)
    · exact h

theorem dot_not_clockPart (clk : Clock) (tp : Int) : '.' ∉ (clockPart clk tp).data := by
  intro h
  have hdot : '.' ∉ decimalDigits := by decide
  simp only [clockPart, String.data_append, List.mem_append] at h
  rcases h with (((h | h) | h) | h) | h
  · exact hdot (twoDigit_chars _ _ h)
  · exact absurd h (by decide)
  · exact hdot (twoDigit_chars _ _ h)
  · exact absurd h (by decide)
  · exact hdot (twoDigit_chars _ _ h)

/-- At or after the epoch the remainder is the natural-number one. -/
theorem millisPart_of_nonneg (clk : Clock) (tp : Int) (h : 0 ≤ tp) :
    millisPart clk tp = ((millisOfEpoch clk tp : Nat) : Int) := by
  obtain ⟨n, rfl⟩ := Int.eq_ofNat_of_zero_le h
  simp only [millisPart, millisOfEpoch, Int.toNat_ofNat]
  rw [← Int.ofNat_tdiv]
  exact (Int.ofNat_tmod (n / clk.ticksPerMilli) 1000).symm

/-- The insertions of `FormatTimestamp`, written out for an instant at or after
the epoch. -/
theorem FormatTimestamp_eq (clk : Clock) (tp : Int) (h : 0 ≤ tp) :
    FormatTimestamp clk tp = clockPart clk tp ++ "." ++ millisField clk tp := by
  have hlt : millisOfEpoch clk tp < 10 ^ 3 := Nat.mod_lt _ (by omega)
  have hms : ∀ buf : String,
      (⟨buf, false, false, 3, '0'⟩ : OStream).padded
          (natDigits 10 false (millisOfEpoch clk tp)) = millisField clk tp := by
    intro buf
    exact padded_natDigits _ 10 false 2 (millisOfEpoch clk tp) (by omega) hlt rfl rfl
  have hz : ∀ (buf : String) (hb up : Bool) (f : Char) (x : String),
      (⟨buf, hb, up, 0, f⟩ : OStream).padded x = x :=
    fun buf hb up f x => padded_width_zero _ x rfl
  have h3 : (3 : Int).toNat = 3 := rfl
  have hnn : ¬ ((millisOfEpoch clk tp : Nat) : Int) < 0 := by omega
  simp only [FormatTimestamp, OStream.fresh, OStream.putTime, OStream.putChar, OStream.putStr,
    OStream.setfill, OStream.setw, OStream.putSigned, OStream.str, OStream.intText,
    OStream.natText, millisPart_of_nonneg clk tp h, Bool.false_eq_true, if_false, hnn,
    Int.toNat_ofNat, h3, hz, hms, clockPart, String.empty_append]
  rfl

/-- C19: for every instant `tp` at or after the epoch, `FormatTimestamp tp` is the
clock part (which holds no `.`), a `.`, and then exactly three decimal digits
whose value is the whole milliseconds elapsed since the epoch modulo 1000. -/
theorem FormatTimestamp_millis_field (clk : Clock) (tp : Int) (h : 0 ≤ tp) :
    FormatTimestamp clk tp = clockPart clk tp ++ "." ++ millisField clk tp ∧
    '.' ∉ (clockPart clk tp).data ∧
    (millisField clk tp).length = 3 ∧
    (∀ c ∈ (millisField clk tp).data, c ∈ decimalDigits) ∧
    readDigits 10 (millisField clk tp).data = tp.toNat / clk.ticksPerMilli % 1000 := by
  have hlt : millisOfEpoch clk tp < 10 ^ 3 := Nat.mod_lt _ (by omega)
  refine ⟨FormatTimestamp_eq clk tp h, dot_not_clockPart clk tp, ?_, ?_, ?_⟩
  · simp only [millisField, String.length_mk, fixedDigits_length]
  · intro c hc
    obtain ⟨d, hd, rfl⟩ := fixedDigits_chars 10 false (by omega) 3 _ c hc
    exact digitChar_decimal_mem false d hd
  · simp only [millisField]
    rw [readDigits_fixedDigits 10 false (by omega) (by omega) 3, Nat.mod_eq_of_lt hlt]
    rfl

/-- C19 at 45296.789 s after the epoch: the field is `789`. -/
theorem FormatTimestamp_millis_field_witness :
    (0 : Int) ≤ 452967890000 ∧
    FormatTimestamp sampleClock 452967890000
      = clockPart sampleClock 452967890000 ++ "." ++ millisField sampleClock 452967890000 ∧
    millisField sampleClock 452967890000 = "789" :=
  ⟨by decide, (FormatTimestamp_millis_field sampleClock 452967890000 (by decide)).1,
    by decide⟩

end kx
